import Mathlib

/-!
# Snake game: state update, food placement and the main loop

A shallow embedding of `src/main.go`.

* The package-level variables `snake`, `food`, `direction`, `score`, `gameOver`
  become the fields of `State`; every Go function that mutates them becomes a
  function from the state before the call to the outcome of the call.
* Go `int` is the 64-bit two's-complement integer.  Its values are modelled by
  `Int`, and the two places where the program computes with them, the sum
  `head + direction` in `update` and `score++`, reduce their result into the
  range `[-2^63, 2^63)` with `wrap64`, as Go does on overflow.
* `rand.Intn n` is modelled by its contract, a value in `[0, n)`: one iteration
  of the loop in `placeFood` consumes one `Draw`, the pair of values returned by
  its two calls.  The random source is a list of draws; a loop that has used up
  the list without accepting a cell has not returned (`Run.spinning`).
* `snake[0]` on an empty slice is a run-time error (`Run.crashed`).
* Rendering (`draw`, `termbox.Clear`) and `time.Sleep` do not touch the game
  variables and are left out.
-/

namespace Snake

/-- Go: `type Point struct { X, Y int }`. -/
structure Point where
  X : Int
  Y : Int
deriving DecidableEq, Repr

/-- Go: `width = 40`. -/
abbrev width : Nat := 40

/-- Go: `height = 20`. -/
abbrev height : Nat := 20

/-- The package-level variables of `main.go`. -/
structure State where
  snake : List Point
  food : Point
  direction : Point
  score : Int
  gameOver : Bool
deriving DecidableEq, Repr

/-- The values of `rand.Intn(width-2)` and `rand.Intn(height-2)` in one iteration
of the loop of `placeFood`. -/
structure Draw where
  rx : Fin (width - 2)
  ry : Fin (height - 2)
deriving DecidableEq, Repr

/-- Outcome of running a function on the package-level variables.  Each case
carries the value of the variables at that point. -/
inductive Run where
  /-- The call returned; `rest` are the draws it did not consume. -/
  | returned (s : State) (rest : List Draw)
  /-- Index out of range at `snake[0]`. -/
  | crashed (s : State)
  /-- The loop of `placeFood` rejected every draw supplied and is still running. -/
  | spinning (s : State)
deriving DecidableEq, Repr

/-- The package-level variables at the end of a run. -/
def Run.state : Run → State
  | .returned s _ => s
  | .crashed s => s
  | .spinning s => s

/-- Whether the call came back to its caller. -/
def Run.isReturned : Run → Bool
  | .returned _ _ => true
  | _ => false

/-- The candidate cell of `placeFood`:
`Point{X: rand.Intn(width-2) + 1, Y: rand.Intn(height-2) + 1}`. -/
def Draw.cell (d : Draw) : Point :=
  { X := (d.rx.val : Int) + 1, Y := (d.ry.val : Int) + 1 }

/-- The loop `for _, p := range snake { if p == q { ... } }` used by both
`update` and `placeFood`: does some segment equal `q`? -/
def onSnake (snake : List Point) (q : Point) : Bool :=
  snake.any (fun p => p == q)

/-- Go: `placeFood()`.  Each iteration assigns the drawn cell to `food` and
leaves the loop when no segment equals it. -/
def placeFood (s : State) : List Draw → Run
  | [] => .spinning s
  | d :: ds =>
    let s1 : State := { s with food := d.cell }
    let inSnake := onSnake s1.snake s1.food
    if !inSnake then .returned s1 ds else placeFood s1 ds

/-- Go: `resetGame()`. -/
def resetGame (s : State) (draws : List Draw) : Run :=
  let s1 : State := { s with gameOver := false }
  let s2 : State := { s1 with snake :=
    [ { X := (width : Int) / 2, Y := (height : Int) / 2 },
      { X := (width : Int) / 2 - 1, Y := (height : Int) / 2 },
      { X := (width : Int) / 2 - 2, Y := (height : Int) / 2 } ] }
  let s3 : State := { s2 with direction := { X := 1, Y := 0 } }
  let s4 : State := { s3 with score := 0 }
  placeFood s4 draws

/-- The result of an `int` operation whose exact value is `z`: the representative
of `z` modulo `2^64` in `[-2^63, 2^63)`. -/
def wrap64 (z : Int) : Int :=
  (z + 9223372036854775808) % 18446744073709551616 - 9223372036854775808

/-- The largest value of Go `int`, `2^63 - 1`. -/
def maxInt64 : Int := 9223372036854775807

/-- The values of Go `int`: `-2^63 <= z < 2^63`. -/
def isInt64 (z : Int) : Prop :=
  -9223372036854775808 ≤ z ∧ z < 9223372036854775808

/-- The value `Point{X: head.X + direction.X, Y: head.Y + direction.Y}` computed
at the top of `update`, for a given head; `+` is the addition of Go `int`. -/
def newHead (head : Point) (direction : Point) : Point :=
  { X := wrap64 (head.X + direction.X), Y := wrap64 (head.Y + direction.Y) }

/-- The wall test of `update`:
`newHead.X <= 0 || newHead.X >= width-1 || newHead.Y <= 0 || newHead.Y >= height-1`. -/
def hitsWall (p : Point) : Bool :=
  decide (p.X ≤ 0) || decide (p.X ≥ (width : Int) - 1) ||
    decide (p.Y ≤ 0) || decide (p.Y ≥ (height : Int) - 1)

/-- Go: `update()`. -/
def update (s : State) (draws : List Draw) : Run :=
  match s.snake with
  | [] => .crashed s
  | head :: _ =>
    let nh := newHead head s.direction
    if hitsWall nh then
      .returned { s with gameOver := true } draws
    else if onSnake s.snake nh then
      .returned { s with gameOver := true } draws
    else
      let s1 : State := { s with snake := nh :: s.snake }
      if nh = s1.food then
        placeFood { s1 with score := wrap64 (s1.score + 1) } draws
      else
        .returned { s1 with snake := s1.snake.dropLast } draws

/-- The values of `termbox.Event.Type`; only `EventKey` is tested by `main`. -/
inductive EventType where
  | EventKey
  | EventResize
  | EventMouse
  | EventError
  | EventInterrupt
  | EventRaw
  | EventNone
deriving DecidableEq, Repr

/-- The values of `termbox.Event.Key` that `main` distinguishes; every other key
code is `other`. -/
inductive Key where
  | KeyArrowUp
  | KeyArrowDown
  | KeyArrowLeft
  | KeyArrowRight
  | KeyCtrlQ
  | KeyEnter
  | other
deriving DecidableEq, Repr

/-- The fields of `termbox.Event` read by `main`. -/
structure Event where
  /-- Go: `ev.Type` (`Type` is reserved in Lean). -/
  Kind : EventType
  Key : Snake.Key
  Ch : Char
deriving DecidableEq, Repr

/-- Outcome of one pass through the `select` of `main`: the run on the game
variables and whether `break gameLoop` was executed. -/
structure Pass where
  run : Run
  quit : Bool
deriving DecidableEq, Repr

/-- The `switch ev.Key` of `main`; `quit` is set by `case termbox.KeyCtrlQ`. -/
def keySwitch (s : State) (k : Key) (draws : List Draw) : Pass :=
  match k with
  | .KeyArrowUp =>
    if s.direction.Y = 0 then
      ⟨.returned { s with direction := { X := 0, Y := -1 } } draws, false⟩
    else ⟨.returned s draws, false⟩
  | .KeyArrowDown =>
    if s.direction.Y = 0 then
      ⟨.returned { s with direction := { X := 0, Y := 1 } } draws, false⟩
    else ⟨.returned s draws, false⟩
  | .KeyArrowLeft =>
    if s.direction.X = 0 then
      ⟨.returned { s with direction := { X := -1, Y := 0 } } draws, false⟩
    else ⟨.returned s draws, false⟩
  | .KeyArrowRight =>
    if s.direction.X = 0 then
      ⟨.returned { s with direction := { X := 1, Y := 0 } } draws, false⟩
    else ⟨.returned s draws, false⟩
  | .KeyCtrlQ => ⟨.returned s draws, true⟩
  | .KeyEnter =>
    if s.gameOver then ⟨resetGame s draws, false⟩ else ⟨.returned s draws, false⟩
  | .other => ⟨.returned s draws, false⟩

/-- The branch `case ev := <-eventQueue` of `main`: the key switch, then the
test `ev.Ch == 'q'`, which is reached only when the switch came back without
leaving the loop. -/
def handleEvent (s : State) (ev : Event) (draws : List Draw) : Pass :=
  if ev.Kind = .EventKey then
    match keySwitch s ev.Key draws with
    | ⟨.returned s1 rest, false⟩ => ⟨.returned s1 rest, ev.Ch == 'q'⟩
    | p => p
  else ⟨.returned s draws, false⟩

/-- The `default` branch of the `select` in `main`:
`if !gameOver { update() }`. -/
def tick (s : State) (draws : List Draw) : Run :=
  if !s.gameOver then update s draws else .returned s draws

/-- States of the game variables between two passes of the loop of `main`:
after the initial `resetGame()`, and after every event or tick that came back. -/
inductive Reachable : State → Prop where
  | start (s0 : State) (draws : List Draw) (s : State) (rest : List Draw) :
      resetGame s0 draws = .returned s rest → Reachable s
  | event (s : State) (ev : Event) (draws : List Draw) (s1 : State)
      (rest : List Draw) (q : Bool) :
      Reachable s → handleEvent s ev draws = ⟨.returned s1 rest, q⟩ → Reachable s1
  | tick (s : State) (draws : List Draw) (s1 : State) (rest : List Draw) :
      Reachable s → tick s draws = .returned s1 rest → Reachable s1

/-! ## Predicates and sample states used in the statements -/

/-- The start position: the snake of `resetGame`, heading right, food in the
top-left interior cell, nothing eaten yet. -/
def startState : State :=
  { snake := [⟨20, 10⟩, ⟨19, 10⟩, ⟨18, 10⟩], food := ⟨1, 1⟩,
    direction := ⟨1, 0⟩, score := 0, gameOver := false }

/-- A snake whose head is the last interior cell of row 5, heading right into
the border column. -/
def wallState : State :=
  { snake := [⟨38, 5⟩, ⟨37, 5⟩, ⟨36, 5⟩], food := ⟨3, 3⟩,
    direction := ⟨1, 0⟩, score := 4, gameOver := false }

/-- A four-segment snake curled so that the cell below its head is its own tail. -/
def curledState : State :=
  { snake := [⟨5, 5⟩, ⟨6, 5⟩, ⟨6, 6⟩, ⟨5, 6⟩], food := ⟨3, 3⟩,
    direction := ⟨0, 1⟩, score := 1, gameOver := false }

/-- The path condition under which `update` reaches `score++`: `snake[0]`
exists, neither collision test fires, and `newHead == food`. -/
def eats (s : State) : Bool :=
  match s.snake with
  | [] => false
  | head :: _ =>
    !hitsWall (newHead head s.direction) &&
      !onSnake s.snake (newHead head s.direction) &&
      decide (newHead head s.direction = s.food)

/-- The start position with the food in the cell right of the head. -/
def feedState : State :=
  { snake := [⟨20, 10⟩, ⟨19, 10⟩, ⟨18, 10⟩], food := ⟨21, 10⟩,
    direction := ⟨1, 0⟩, score := 0, gameOver := false }

/-- The draw `(0, 0)`, whose candidate cell is `(1, 1)`. -/
def drawCorner : Draw := ⟨⟨0, by decide⟩, ⟨0, by decide⟩⟩

/-- The draw `(19, 9)`, whose candidate cell `(20, 10)` is the head of the
start snake. -/
def drawCentre : Draw := ⟨⟨19, by decide⟩, ⟨9, by decide⟩⟩

/-- The four values assigned to `direction` by `main` and `resetGame`. -/
def isUnit (d : Point) : Prop :=
  d = ⟨0, -1⟩ ∨ d = ⟨0, 1⟩ ∨ d = ⟨-1, 0⟩ ∨ d = ⟨1, 0⟩

/-- The keys of the four direction cases of the switch in `main`. -/
def isArrow (k : Key) : Prop :=
  k = .KeyArrowUp ∨ k = .KeyArrowDown ∨ k = .KeyArrowLeft ∨ k = .KeyArrowRight

/-- The snake assigned by `resetGame`, with the constants evaluated. -/
def startSnake : List Point := [⟨20, 10⟩, ⟨19, 10⟩, ⟨18, 10⟩]

/-- The state left by `update` after `wallState` ran into the border. -/
def overState : State := { wallState with gameOver := true }

/-- A key event as termbox reports a special key: `Ch` is the zero rune. -/
def keyEvent (k : Key) : Event := ⟨.EventKey, k, Char.ofNat 0⟩

/-- The start position after Up and then Left were handled with no tick in
between: the snake still lies heading right, the direction points left. -/
def turnedBack : State := { startState with direction := ⟨-1, 0⟩ }

/-- The cells strictly inside the border: `1 <= x <= width-2`, `1 <= y <= height-2`. -/
def interior (p : Point) : Prop :=
  1 ≤ p.X ∧ p.X ≤ (width : Int) - 2 ∧ 1 ≤ p.Y ∧ p.Y ≤ (height : Int) - 2

/-- What every pass of the loop of `main` maintains: distinct segments, a unit
direction, all segments inside the border, at least three of them, and a score
counting the segments beyond the first three. -/
def WellFormed (s : State) : Prop :=
  s.snake.Nodup ∧ isUnit s.direction ∧ (∀ p ∈ s.snake, interior p) ∧
    3 ≤ s.snake.length ∧ s.score = (s.snake.length : Int) - 3

/-- The draw `(20, 9)`, whose candidate cell `(21, 10)` lies right of the head of
the start snake. -/
def drawAhead : Draw := ⟨⟨20, by decide⟩, ⟨9, by decide⟩⟩

/-- The state after `feedState` ate the food at `(21, 10)` and `placeFood` drew
the corner cell: four segments, score 1. -/
def fedState : State :=
  { snake := [⟨21, 10⟩, ⟨20, 10⟩, ⟨19, 10⟩, ⟨18, 10⟩], food := ⟨1, 1⟩,
    direction := ⟨1, 0⟩, score := 1, gameOver := false }

/-- The state after one tick from `startState`. -/
def movedState : State :=
  { snake := [⟨21, 10⟩, ⟨20, 10⟩, ⟨19, 10⟩], food := ⟨1, 1⟩,
    direction := ⟨1, 0⟩, score := 0, gameOver := false }

/-- A snake lying on every interior cell: column after column, downwards in the
even columns and upwards in the odd ones, so that consecutive segments are
neighbours. -/
def fullSnake : List Point :=
  (List.range (width - 2)).flatMap (fun (i : Nat) =>
    (if i % 2 = 0 then List.range (height - 2) else (List.range (height - 2)).reverse).map
      (fun (j : Nat) => ⟨(i : Int) + 1, (j : Int) + 1⟩))

/-- A state whose snake is `fullSnake`. -/
def fullState : State :=
  { snake := fullSnake, food := ⟨1, 1⟩, direction := ⟨0, -1⟩, score := 681,
    gameOver := false }

/-- A key event as termbox reports a printable key: `Key` is zero, which is none
of the keys of the switch, and `Ch` is the character. -/
def charEvent (c : Char) : Event := ⟨.EventKey, .other, c⟩

/-- A terminal resize event. -/
def resizeEvent : Event := ⟨.EventResize, .other, Char.ofNat 0⟩

/-- The position of `feedState`, food right of the head, with the score at the
largest `int`. -/
def maxScoreState : State :=
  { snake := [⟨20, 10⟩, ⟨19, 10⟩, ⟨18, 10⟩], food := ⟨21, 10⟩,
    direction := ⟨1, 0⟩, score := 9223372036854775807, gameOver := false }

end Snake

namespace Snake

/-! ## Basic facts about the embedded functions -/

theorem onSnake_iff (snake : List Point) (q : Point) :
    onSnake snake q = true ↔ q ∈ snake := by
  unfold onSnake
  rw [List.any_eq_true]
  constructor
  · rintro ⟨p, hp, hpq⟩
    have : p = q := by simpa using hpq
    exact this ▸ hp
  · intro h
    exact ⟨q, h, by simp⟩

theorem onSnake_false_iff (snake : List Point) (q : Point) :
    onSnake snake q = false ↔ q ∉ snake := by
  rw [← onSnake_iff]
  cases onSnake snake q <;> simp

theorem hitsWall_iff (p : Point) :
    hitsWall p = true ↔
      (p.X ≤ 0 ∨ p.X ≥ (width : Int) - 1 ∨ p.Y ≤ 0 ∨ p.Y ≥ (height : Int) - 1) := by
  unfold hitsWall
  simp only [Bool.or_eq_true, decide_eq_true_eq]
  tauto

theorem hitsWall_false_iff (p : Point) :
    hitsWall p = false ↔
      ¬ (p.X ≤ 0 ∨ p.X ≥ (width : Int) - 1 ∨ p.Y ≤ 0 ∨ p.Y ≥ (height : Int) - 1) := by
  rw [← hitsWall_iff]
  cases hitsWall p <;> simp

/-- An `int` operation whose exact result is an `int` value does not wrap. -/
theorem wrap64_eq_self (z : Int) (h : isInt64 z) : wrap64 z = z := by
  unfold isInt64 at h
  unfold wrap64
  omega

/-- Every result of an `int` operation is an `int` value. -/
theorem wrap64_isInt64 (z : Int) : isInt64 (wrap64 z) := by
  unfold isInt64 wrap64
  omega

/-- The loop of `placeFood` writes only `food`. -/
theorem placeFood_frame (draws : List Draw) (s : State) :
    (placeFood s draws).state.snake = s.snake ∧
    (placeFood s draws).state.direction = s.direction ∧
    (placeFood s draws).state.score = s.score ∧
    (placeFood s draws).state.gameOver = s.gameOver := by
  induction draws generalizing s with
  | nil => simp [placeFood, Run.state]
  | cons d ds ih =>
    unfold placeFood
    by_cases h : onSnake s.snake d.cell = true
    · simp only [h, Bool.not_true, Bool.false_eq_true, if_false]
      simpa using ih { s with food := d.cell }
    · simp [h, Run.state]

/-- When the loop of `placeFood` is left, the last cell assigned is off the snake. -/
theorem placeFood_returned_off (draws : List Draw) (s : State) :
    (placeFood s draws).isReturned = true →
      (placeFood s draws).state.food ∉ s.snake := by
  induction draws generalizing s with
  | nil => simp [placeFood, Run.isReturned]
  | cons d ds ih =>
    unfold placeFood
    by_cases h : onSnake s.snake d.cell = true
    · simp only [h, Bool.not_true, Bool.false_eq_true, if_false]
      simpa using ih { s with food := d.cell }
    · intro _
      have hoff : d.cell ∉ s.snake := (onSnake_false_iff _ _).1 (by simpa using h)
      simpa [h, Run.state] using hoff

/-- The loop of `placeFood` is left exactly when some supplied draw is off the snake. -/
theorem placeFood_isReturned_iff (draws : List Draw) (s : State) :
    (placeFood s draws).isReturned = true ↔ ∃ d ∈ draws, d.cell ∉ s.snake := by
  induction draws generalizing s with
  | nil => simp [placeFood, Run.isReturned]
  | cons d ds ih =>
    unfold placeFood
    by_cases h : onSnake s.snake d.cell = true
    · have hon : d.cell ∈ s.snake := (onSnake_iff _ _).1 h
      simp only [h, Bool.not_true, Bool.false_eq_true, if_false]
      rw [ih { s with food := d.cell }]
      constructor
      · rintro ⟨x, hx, hoff⟩
        exact ⟨x, List.mem_cons_of_mem _ hx, hoff⟩
      · rintro ⟨x, hx, hoff⟩
        rcases List.mem_cons.1 hx with rfl | hx
        · exact absurd hon hoff
        · exact ⟨x, hx, hoff⟩
    · have hoff : d.cell ∉ s.snake := (onSnake_false_iff _ _).1 (by simpa using h)
      simp only [h, Bool.not_false, if_true, Run.isReturned, true_iff]
      exact ⟨d, List.mem_cons_self _ _, hoff⟩

/-- The body of `update` after `head := snake[0]` succeeded. -/
theorem update_cons (s : State) (draws : List Draw) (head : Point) (tail : List Point)
    (hs : s.snake = head :: tail) :
    update s draws =
      if hitsWall (newHead head s.direction) then
        .returned { s with gameOver := true } draws
      else if onSnake s.snake (newHead head s.direction) then
        .returned { s with gameOver := true } draws
      else if newHead head s.direction = s.food then
        placeFood { s with snake := newHead head s.direction :: s.snake,
                           score := wrap64 (s.score + 1) } draws
      else
        .returned { s with snake := (newHead head s.direction :: s.snake).dropLast } draws := by
  unfold update
  split
  · rename_i h
    rw [hs] at h
    exact absurd h (by simp)
  · rename_i hd tl h
    rw [hs] at h
    obtain ⟨rfl, rfl⟩ := List.cons.inj h
    rfl

theorem update_nil (s : State) (draws : List Draw) (hs : s.snake = []) :
    update s draws = .crashed s := by
  unfold update
  split
  · rfl
  · rename_i hd tl h
    rw [hs] at h
    exact absurd h (by simp)

theorem tick_running (s : State) (draws : List Draw) (h : s.gameOver = false) :
    tick s draws = update s draws := by
  simp [tick, h]

/-! ## Claims about `update`, `placeFood` and `resetGame` -/

/-- C1: in a state that is not game-over, whose snake is `head :: tail` and whose
next head `head + direction` is neither on the border nor on the snake, the tick
runs `update`, which leaves the game running with the next head as the first
segment; when the next head is not the food `update` returns with the segment
count unchanged, and when it is the food the segment count grows by one and
`update` returns exactly when `placeFood` is given a draw off the grown snake. -/
theorem update_advances_head (s : State) (draws : List Draw) (head : Point)
    (tail : List Point) (hgo : s.gameOver = false) (hs : s.snake = head :: tail)
    (hwall : ¬ ((newHead head s.direction).X ≤ 0 ∨
                (newHead head s.direction).X ≥ (width : Int) - 1 ∨
                (newHead head s.direction).Y ≤ 0 ∨
                (newHead head s.direction).Y ≥ (height : Int) - 1))
    (hself : newHead head s.direction ∉ s.snake) :
    tick s draws = update s draws ∧
    (update s draws).state.snake.head? = some (newHead head s.direction) ∧
    (update s draws).state.gameOver = false ∧
    (newHead head s.direction ≠ s.food →
      (update s draws).isReturned = true ∧
      (update s draws).state.snake.length = s.snake.length) ∧
    (newHead head s.direction = s.food →
      (update s draws).state.snake.length = s.snake.length + 1 ∧
      ((update s draws).isReturned = true ↔
        ∃ d ∈ draws, d.cell ∉ newHead head s.direction :: s.snake)) := by
  have hw : hitsWall (newHead head s.direction) = false := (hitsWall_false_iff _).2 hwall
  have ho : onSnake s.snake (newHead head s.direction) = false :=
    (onSnake_false_iff _ _).2 hself
  refine ⟨tick_running s draws hgo, ?_⟩
  rw [update_cons s draws head tail hs]
  simp only [hw, ho, Bool.false_eq_true, if_false]
  by_cases hf : newHead head s.direction = s.food
  · simp only [if_pos hf]
    have hfr := placeFood_frame draws
      { s with snake := newHead head s.direction :: s.snake, score := wrap64 (s.score + 1) }
    have hret := placeFood_isReturned_iff draws
      { s with snake := newHead head s.direction :: s.snake, score := wrap64 (s.score + 1) }
    refine ⟨by rw [hfr.1]; rfl, by rw [hfr.2.2.2]; exact hgo, fun h => absurd hf h, fun _ => ?_⟩
    exact ⟨by rw [hfr.1]; rfl, hret⟩
  · simp only [if_neg hf]
    refine ⟨?_, hgo, fun _ => ⟨rfl, ?_⟩, fun h => absurd h hf⟩
    · simp [Run.state, hs, List.dropLast]
    · simp [Run.state]

/-- Witness for C1 at the start position with no draws. -/
theorem update_advances_head_witness :
    (update startState []).state.snake.head? = some ⟨21, 10⟩ ∧
    (update startState []).isReturned = true ∧
    (update startState []).state.snake.length = 3 :=
  have h := update_advances_head startState [] ⟨20, 10⟩ [⟨19, 10⟩, ⟨18, 10⟩] rfl rfl
    (by decide) (by decide)
  ⟨h.2.1, (h.2.2.2.1 (by decide)).1, (h.2.2.2.1 (by decide)).2⟩

/-- C2: when the snake is `head :: tail` and the next head, the value of
`head + direction` in Go `int`, satisfies one of the four border conditions,
`update` returns the state it was given with only `gameOver` set to true: snake,
score, food and direction (and the random source) are untouched.  In particular
this is so for direction `(1,0)` and a head in column `width-2`, whatever its
row.  Whenever neither coordinate sum overflows, the same holds with the border
conditions read on the exact sums. -/
theorem update_wall_collision (s : State) (draws : List Draw) (head : Point)
    (tail : List Point) (hs : s.snake = head :: tail) :
    (((newHead head s.direction).X ≤ 0 ∨
      (newHead head s.direction).X ≥ (width : Int) - 1 ∨
      (newHead head s.direction).Y ≤ 0 ∨
      (newHead head s.direction).Y ≥ (height : Int) - 1) →
      update s draws = .returned { s with gameOver := true } draws) ∧
    (s.direction = ⟨1, 0⟩ → head.X = (width : Int) - 2 →
      update s draws = .returned { s with gameOver := true } draws) ∧
    (isInt64 (head.X + s.direction.X) → isInt64 (head.Y + s.direction.Y) →
      (head.X + s.direction.X ≤ 0 ∨ head.X + s.direction.X ≥ (width : Int) - 1 ∨
       head.Y + s.direction.Y ≤ 0 ∨ head.Y + s.direction.Y ≥ (height : Int) - 1) →
      update s draws = .returned { s with gameOver := true } draws) := by
  have key : hitsWall (newHead head s.direction) = true →
      update s draws = .returned { s with gameOver := true } draws := by
    intro hw
    rw [update_cons s draws head tail hs]
    simp [hw]
  refine ⟨fun h => key ((hitsWall_iff _).2 h), fun hd hx => key ((hitsWall_iff _).2 ?_),
    fun hx hy h => key ((hitsWall_iff _).2 ?_)⟩
  · right; left
    simp only [newHead, hd, hx]
    decide
  · simp only [newHead, wrap64_eq_self _ hx, wrap64_eq_self _ hy]
    exact h

/-- Witness for C2: head at `(width-2, 5)` moving right. -/
theorem update_wall_collision_witness :
    update wallState [] = .returned { wallState with gameOver := true } [] ∧
    (update wallState []).state.snake = [⟨38, 5⟩, ⟨37, 5⟩, ⟨36, 5⟩] ∧
    (update wallState []).state.score = 4 :=
  have h := (update_wall_collision wallState [] ⟨38, 5⟩ [⟨37, 5⟩, ⟨36, 5⟩] rfl).2.1 rfl rfl
  ⟨h, by rw [h]; rfl, by rw [h]; rfl⟩

/-- C3: when the snake is `head :: tail` and the next head `head + direction`
equals a segment of the snake as it is before the move, `update` returns the
state it was given with only `gameOver` set to true, so snake, score and food
keep their values.  The last segment counts as well, although it would have been
removed by this very move. -/
theorem update_self_collision (s : State) (draws : List Draw) (head : Point)
    (tail : List Point) (hs : s.snake = head :: tail) :
    (newHead head s.direction ∈ s.snake →
      update s draws = .returned { s with gameOver := true } draws) ∧
    (s.snake.getLast? = some (newHead head s.direction) →
      update s draws = .returned { s with gameOver := true } draws) := by
  have key : newHead head s.direction ∈ s.snake →
      update s draws = .returned { s with gameOver := true } draws := by
    intro hmem
    have ho : onSnake s.snake (newHead head s.direction) = true := (onSnake_iff _ _).2 hmem
    rw [update_cons s draws head tail hs]
    by_cases hw : hitsWall (newHead head s.direction) = true
    · simp [hw]
    · simp [hw, ho]
  exact ⟨key, fun hl => key (List.mem_of_getLast?_eq_some hl)⟩

/-- Witness for C3: the head of `curledState` moves onto the current tail cell. -/
theorem update_self_collision_witness :
    update curledState [] = .returned { curledState with gameOver := true } [] ∧
    (update curledState []).state.snake = curledState.snake ∧
    (update curledState []).state.score = curledState.score ∧
    (update curledState []).state.food = curledState.food :=
  have h := (update_self_collision curledState [] ⟨5, 5⟩ [⟨6, 5⟩, ⟨6, 6⟩, ⟨5, 6⟩] rfl).2 rfl
  ⟨h, by rw [h]; rfl, by rw [h]; rfl, by rw [h]; rfl⟩

theorem eats_cons (s : State) (head : Point) (tail : List Point)
    (hs : s.snake = head :: tail) :
    eats s = (!hitsWall (newHead head s.direction) &&
      !onSnake s.snake (newHead head s.direction) &&
      decide (newHead head s.direction = s.food)) := by
  unfold eats
  split
  · rename_i h
    rw [hs] at h
    exact absurd h (by simp)
  · rename_i hd tl h
    rw [hs] at h
    obtain ⟨rfl, rfl⟩ := List.cons.inj h
    rfl

/-- C4 as stated fails: in `maxScoreState` the next head is free and is the food,
the score is the largest `int`, and `score++` wraps it to the smallest one, so
the score does not grow by 1 and it decreases. -/
theorem update_score_wraps_at_max :
    maxScoreState.gameOver = false ∧ eats maxScoreState = true ∧
    maxScoreState.score = 9223372036854775807 ∧
    (update maxScoreState [drawCorner]).isReturned = true ∧
    (update maxScoreState [drawCorner]).state.score = -9223372036854775808 ∧
    (update maxScoreState [drawCorner]).state.score ≠ maxScoreState.score + 1 ∧
    (update maxScoreState [drawCorner]).state.score < maxScoreState.score := by
  decide

/-- C4, amended: in a state that is not game-over the tick runs `update`.  When
the next head is free of wall and snake and equals the food, `update` applies
`score++`, which adds exactly 1 whenever the score is an `int` below the largest
one, and the snake becomes the next head followed by the whole previous snake,
tail included (and `update` returns exactly when `placeFood` is given a draw off
that snake); in every other case the score is unchanged, and `update` returns
provided the snake is non-empty.  The score of a state whose score is an `int`
below the largest one does not decrease. -/
theorem update_score_below_max (s : State) (draws : List Draw)
    (hgo : s.gameOver = false) :
    tick s draws = update s draws ∧
    (eats s = true →
      (update s draws).state.score = wrap64 (s.score + 1) ∧
      (isInt64 s.score → s.score ≠ maxInt64 →
        (update s draws).state.score = s.score + 1) ∧
      (∃ head tail, s.snake = head :: tail ∧
        (update s draws).state.snake = newHead head s.direction :: s.snake ∧
        ((update s draws).isReturned = true ↔
          ∃ d ∈ draws, d.cell ∉ newHead head s.direction :: s.snake))) ∧
    (eats s = false →
      (update s draws).state.score = s.score ∧
      (s.snake ≠ [] → (update s draws).isReturned = true)) ∧
    (isInt64 s.score → s.score ≠ maxInt64 →
      s.score ≤ (update s draws).state.score) := by
  have hinc : isInt64 s.score → s.score ≠ maxInt64 → wrap64 (s.score + 1) = s.score + 1 := by
    intro h1 h2
    apply wrap64_eq_self
    unfold isInt64 at h1 ⊢
    unfold maxInt64 at h2
    omega
  refine ⟨tick_running s draws hgo, ?_⟩
  rcases hs : s.snake with _ | ⟨head, tail⟩
  · have he : eats s = false := by simp [eats, hs]
    rw [update_nil s draws hs]
    simp [he, Run.state]
  · rw [← hs, update_cons s draws head tail hs, eats_cons s head tail hs]
    by_cases hw : hitsWall (newHead head s.direction) = true
    · simp [hw, Run.state, Run.isReturned]
    · by_cases ho : onSnake s.snake (newHead head s.direction) = true
      · simp [hw, ho, Run.state, Run.isReturned]
      · by_cases hf : newHead head s.direction = s.food
        · have hfr := placeFood_frame draws
            { s with snake := newHead head s.direction :: s.snake,
                     score := wrap64 (s.score + 1) }
          have hret := placeFood_isReturned_iff draws
            { s with snake := newHead head s.direction :: s.snake,
                     score := wrap64 (s.score + 1) }
          simp only [hw, ho, Bool.false_eq_true, if_false, if_pos hf, Bool.not_false,
            Bool.and_self, decide_True, true_implies, Bool.true_and]
          refine ⟨fun _ => ⟨hfr.2.2.1, fun h1 h2 => ?_, head, tail, hs, hfr.1, hret⟩, ?_, ?_⟩
          · rw [hfr.2.2.1]
            exact hinc h1 h2
          · intro h
            exact absurd hf (by simpa using h)
          · intro h1 h2
            rw [hfr.2.2.1]
            show s.score ≤ wrap64 (s.score + 1)
            rw [hinc h1 h2]
            omega
        · simp [hw, ho, hf, Run.state, Run.isReturned]

/-- Witness for C4, amended: the food lies right of the head and one draw is
supplied. -/
theorem update_score_below_max_witness :
    (update feedState [drawCorner]).state.score = 1 ∧
    (update startState []).state.score = 0 ∧
    feedState.score ≤ (update feedState [drawCorner]).state.score :=
  ⟨((update_score_below_max feedState [drawCorner] rfl).2.1 (by decide)).2.1
      ⟨by decide, by decide⟩ (by decide),
   ((update_score_below_max startState [] rfl).2.2.1 (by decide)).1,
   (update_score_below_max feedState [drawCorner] rfl).2.2.2
      ⟨by decide, by decide⟩ (by decide)⟩

theorem placeFood_returned_eq (s : State) (draws : List Draw) (s1 : State)
    (rest : List Draw) (h : placeFood s draws = .returned s1 rest) :
    (placeFood s draws).isReturned = true ∧ (placeFood s draws).state = s1 := by
  rw [h]
  exact ⟨rfl, rfl⟩

/-- What holds of the state with which `placeFood` returns. -/
theorem placeFood_returned_inv (s : State) (draws : List Draw) (s1 : State)
    (rest : List Draw) (h : placeFood s draws = .returned s1 rest) :
    s1.snake = s.snake ∧ s1.food ∉ s1.snake := by
  obtain ⟨hret, hst⟩ := placeFood_returned_eq s draws s1 rest h
  have hsn : s1.snake = s.snake := by rw [← hst]; exact (placeFood_frame draws s).1
  have hoff : s1.food ∉ s.snake := by rw [← hst]; exact placeFood_returned_off draws s hret
  exact ⟨hsn, by rw [hsn]; exact hoff⟩

/-- C5: for every snake and every list of draws, `placeFood` returns exactly when
some draw is off the snake, and whenever it returns the food it has assigned is
not a segment of the snake (which it leaves as it was). -/
theorem placeFood_avoids_snake (s : State) (draws : List Draw) :
    ((placeFood s draws).isReturned = true ↔ ∃ d ∈ draws, d.cell ∉ s.snake) ∧
    (∀ s1 rest, placeFood s draws = .returned s1 rest →
      s1.snake = s.snake ∧ s1.food ∉ s1.snake ∧ ∀ p ∈ s.snake, p ≠ s1.food) := by
  refine ⟨placeFood_isReturned_iff draws s, fun s1 rest h => ?_⟩
  obtain ⟨hsn, hoff⟩ := placeFood_returned_inv s draws s1 rest h
  exact ⟨hsn, hoff, fun p hp hpf => hoff (hsn ▸ hpf ▸ hp)⟩

/-- Witness for C5: the first draw lands on the head and is rejected, the second
is accepted. -/
theorem placeFood_avoids_snake_witness :
    placeFood feedState [drawCentre, drawCorner] = .returned startState [] ∧
    startState.food ∉ startState.snake :=
  ⟨by decide,
   ((placeFood_avoids_snake feedState [drawCentre, drawCorner]).2 startState []
      (by decide)).2.1⟩

/-- C6: when the direction is one of the four unit vectors, handling an event
whose key is an arrow returns and never leaves the negation of the previous
direction in `direction`.  For a key event, Up and Down are applied only when
`direction.Y == 0`, Left and Right only when `direction.X == 0`, and otherwise
the direction is unchanged. -/
theorem arrow_never_reverses (s : State) (ev : Event) (draws : List Draw)
    (hdir : isUnit s.direction) (harrow : isArrow ev.Key) :
    (handleEvent s ev draws).run.isReturned = true ∧
    (handleEvent s ev draws).run.state.direction ≠ ⟨-s.direction.X, -s.direction.Y⟩ ∧
    (ev.Kind = .EventKey →
      (ev.Key = .KeyArrowUp → (handleEvent s ev draws).run.state.direction =
        if s.direction.Y = 0 then ⟨0, -1⟩ else s.direction) ∧
      (ev.Key = .KeyArrowDown → (handleEvent s ev draws).run.state.direction =
        if s.direction.Y = 0 then ⟨0, 1⟩ else s.direction) ∧
      (ev.Key = .KeyArrowLeft → (handleEvent s ev draws).run.state.direction =
        if s.direction.X = 0 then ⟨-1, 0⟩ else s.direction) ∧
      (ev.Key = .KeyArrowRight → (handleEvent s ev draws).run.state.direction =
        if s.direction.X = 0 then ⟨1, 0⟩ else s.direction)) := by
  obtain ⟨kind, key, ch⟩ := ev
  obtain ⟨snake, food, dir, score, over⟩ := s
  simp only [isUnit] at hdir
  simp only [isArrow] at harrow
  by_cases hk : kind = .EventKey
  · subst hk
    rcases hdir with h | h | h | h <;> rcases harrow with k | k | k | k <;>
      subst h <;> subst k <;>
      simp [handleEvent, keySwitch, Run.isReturned, Run.state]
  · rcases hdir with h | h | h | h <;> subst h <;>
      simp [handleEvent, hk, Run.isReturned, Run.state]

/-- Witness for C6: Left while heading right is ignored; Up is applied. -/
theorem arrow_never_reverses_witness :
    (handleEvent startState (keyEvent .KeyArrowLeft) []).run.state.direction
      ≠ ⟨-1, 0⟩ ∧
    (handleEvent startState (keyEvent .KeyArrowUp) []).run.state.direction
      ≠ ⟨-1, 0⟩ :=
  ⟨(arrow_never_reverses startState (keyEvent .KeyArrowLeft) []
      (Or.inr (Or.inr (Or.inr rfl))) (Or.inr (Or.inr (Or.inl rfl)))).2.1,
   (arrow_never_reverses startState (keyEvent .KeyArrowUp) []
      (Or.inr (Or.inr (Or.inr rfl))) (Or.inl rfl)).2.1⟩

/-- C7: from every prior state and with every list of draws, `resetGame` leaves
`gameOver = false`, `score = 0`, `direction = (1,0)` and the snake
`[(width/2, height/2), (width/2-1, height/2), (width/2-2, height/2)]`, which on
the 40 x 20 grid is `[(20,10),(19,10),(18,10)]`; it returns exactly when some
draw is off that snake, and then the draw decides nothing but the food. -/
theorem resetGame_canonical (s : State) (draws : List Draw) :
    (resetGame s draws).state.gameOver = false ∧
    (resetGame s draws).state.score = 0 ∧
    (resetGame s draws).state.direction = ⟨1, 0⟩ ∧
    (resetGame s draws).state.snake =
      [⟨(width : Int) / 2, (height : Int) / 2⟩,
       ⟨(width : Int) / 2 - 1, (height : Int) / 2⟩,
       ⟨(width : Int) / 2 - 2, (height : Int) / 2⟩] ∧
    (resetGame s draws).state.snake = [⟨20, 10⟩, ⟨19, 10⟩, ⟨18, 10⟩] ∧
    ((resetGame s draws).isReturned = true ↔ ∃ d ∈ draws, d.cell ∉ startSnake) ∧
    (∀ s1 rest, resetGame s draws = .returned s1 rest →
      s1 = { snake := [⟨20, 10⟩, ⟨19, 10⟩, ⟨18, 10⟩], food := s1.food,
             direction := ⟨1, 0⟩, score := 0, gameOver := false }) := by
  have hfr := placeFood_frame draws
    { snake := startSnake, food := s.food, direction := ⟨1, 0⟩, score := 0,
      gameOver := false }
  have hret := placeFood_isReturned_iff draws
    { snake := startSnake, food := s.food, direction := ⟨1, 0⟩, score := 0,
      gameOver := false }
  have hdef : resetGame s draws = placeFood
      { snake := startSnake, food := s.food, direction := ⟨1, 0⟩, score := 0,
        gameOver := false } draws := rfl
  rw [hdef]
  refine ⟨hfr.2.2.2, hfr.2.2.1, hfr.2.1, hfr.1, hfr.1, hret, fun s1 rest h => ?_⟩
  rw [h] at hfr
  obtain ⟨sn, fd, dr, sc, go⟩ := s1
  simp only [Run.state] at hfr
  obtain ⟨h1, h2, h3, h4⟩ := hfr
  subst h1 h2 h3 h4
  rfl

/-- Witness for C7: a restart from the game-over state `overState`. -/
theorem resetGame_canonical_witness :
    resetGame overState [drawCorner] = .returned startState [] ∧
    (resetGame overState [drawCorner]).state.score = 0 ∧
    startState = { snake := [⟨20, 10⟩, ⟨19, 10⟩, ⟨18, 10⟩], food := startState.food,
                   direction := ⟨1, 0⟩, score := 0, gameOver := false } :=
  ⟨by decide, (resetGame_canonical overState [drawCorner]).2.1,
   (resetGame_canonical overState [drawCorner]).2.2.2.2.2.2 startState [] (by decide)⟩

/-- C8: in a state with `gameOver = true` the tick returns the state unchanged
(snake, food, score, direction and `gameOver`) without using the random source.
An event leaves `gameOver = true` and snake, food and score as they were, unless
it is a key event with key Enter, the one place where `resetGame` is called. -/
theorem tick_game_over (s : State) (draws : List Draw) (hgo : s.gameOver = true) :
    tick s draws = .returned s draws ∧
    (∀ ev : Event, ¬ (ev.Kind = .EventKey ∧ ev.Key = .KeyEnter) →
      (handleEvent s ev draws).run.isReturned = true ∧
      (handleEvent s ev draws).run.state.gameOver = true ∧
      (handleEvent s ev draws).run.state.snake = s.snake ∧
      (handleEvent s ev draws).run.state.food = s.food ∧
      (handleEvent s ev draws).run.state.score = s.score) ∧
    (∀ ev : Event, ev.Kind = .EventKey → ev.Key = .KeyEnter →
      (handleEvent s ev draws).run = resetGame s draws) := by
  refine ⟨by simp [tick, hgo], fun ev hev => ?_, fun ev hk he => ?_⟩
  · obtain ⟨kind, key, ch⟩ := ev
    by_cases hk : kind = .EventKey
    · subst hk
      have hne : key ≠ .KeyEnter := fun h => hev ⟨rfl, h⟩
      cases key with
      | KeyEnter => exact absurd rfl hne
      | KeyArrowUp | KeyArrowDown | KeyArrowLeft | KeyArrowRight =>
        simp only [handleEvent, keySwitch, if_true]
        split_ifs <;> simp [Run.isReturned, Run.state, hgo]
      | KeyCtrlQ | other =>
        simp [handleEvent, keySwitch, Run.isReturned, Run.state, hgo]
    · simp [handleEvent, hk, Run.isReturned, Run.state, hgo]
  · obtain ⟨kind, key, ch⟩ := ev
    simp only at hk he
    subst hk he
    simp only [handleEvent, keySwitch, hgo, if_true]
    cases resetGame s draws <;> rfl

/-- Witness for C8 at the game-over state `overState`. -/
theorem tick_game_over_witness :
    tick overState [drawCorner] = .returned overState [drawCorner] ∧
    (handleEvent overState (keyEvent .KeyArrowUp) []).run.state.gameOver = true ∧
    (handleEvent overState (keyEvent .KeyEnter) [drawCorner]).run =
      resetGame overState [drawCorner] :=
  ⟨(tick_game_over overState [drawCorner] rfl).1,
   ((tick_game_over overState [] rfl).2.1 (keyEvent .KeyArrowUp) (by decide)).2.1,
   (tick_game_over overState [drawCorner] rfl).2.2 (keyEvent .KeyEnter) rfl rfl⟩

/-! ## The main loop: states reachable from `resetGame` -/

theorem reachable_startState : Reachable startState :=
  Reachable.start overState [drawCorner] startState [] (by decide)

theorem reachable_turnedBack : Reachable turnedBack :=
  Reachable.event { startState with direction := ⟨0, -1⟩ } (keyEvent .KeyArrowLeft) []
    turnedBack [] false
    (Reachable.event startState (keyEvent .KeyArrowUp) []
      { startState with direction := ⟨0, -1⟩ } [] false reachable_startState (by decide))
    (by decide)

/-- C9, evaluated on the code: after `resetGame`, the key events Up and Left
handled before the next tick leave a running game whose direction is `(-1,0)`
while the snake is still `[(20,10),(19,10),(18,10)]`, so head + direction is the
second segment `(19,10)`, and the next tick ends the game by self collision. -/
theorem two_keys_reverse_into_neck :
    Reachable turnedBack ∧
    (handleEvent startState (keyEvent .KeyArrowUp) []).run =
      .returned { startState with direction := ⟨0, -1⟩ } [] ∧
    (handleEvent { startState with direction := ⟨0, -1⟩ } (keyEvent .KeyArrowLeft) []).run =
      .returned turnedBack [] ∧
    turnedBack.gameOver = false ∧
    turnedBack.snake = [⟨20, 10⟩, ⟨19, 10⟩, ⟨18, 10⟩] ∧
    newHead ⟨20, 10⟩ turnedBack.direction = ⟨19, 10⟩ ∧
    tick turnedBack [] = .returned { turnedBack with gameOver := true } [] :=
  ⟨reachable_turnedBack, by decide, by decide, rfl, rfl, by decide, by decide⟩

/-- The three ways in which `update` returns. -/
theorem update_returned_cases (s : State) (draws : List Draw) (s1 : State)
    (rest : List Draw) (h : update s draws = .returned s1 rest) :
    ∃ head tail, s.snake = head :: tail ∧
      ((s1 = { s with gameOver := true } ∧ rest = draws) ∨
       (hitsWall (newHead head s.direction) = false ∧
        newHead head s.direction ∉ s.snake ∧ newHead head s.direction ≠ s.food ∧
        s1 = { s with snake := (newHead head s.direction :: s.snake).dropLast } ∧
        rest = draws) ∨
       (hitsWall (newHead head s.direction) = false ∧
        newHead head s.direction ∉ s.snake ∧ newHead head s.direction = s.food ∧
        placeFood { s with snake := newHead head s.direction :: s.snake,
                           score := wrap64 (s.score + 1) } draws = .returned s1 rest)) := by
  rcases hs : s.snake with _ | ⟨head, tail⟩
  · rw [update_nil s draws hs] at h
    cases h
  · refine ⟨head, tail, rfl, ?_⟩
    rw [← hs]
    rw [update_cons s draws head tail hs] at h
    by_cases hw : hitsWall (newHead head s.direction) = true
    · rw [if_pos hw] at h
      injection h with h1 h2
      exact Or.inl ⟨h1.symm, h2.symm⟩
    · rw [if_neg hw] at h
      have hw0 : hitsWall (newHead head s.direction) = false := by simpa using hw
      by_cases ho : onSnake s.snake (newHead head s.direction) = true
      · rw [if_pos ho] at h
        injection h with h1 h2
        exact Or.inl ⟨h1.symm, h2.symm⟩
      · rw [if_neg ho] at h
        have hoff : newHead head s.direction ∉ s.snake :=
          (onSnake_false_iff _ _).1 (by simpa using ho)
        by_cases hf : newHead head s.direction = s.food
        · rw [if_pos hf] at h
          exact Or.inr (Or.inr ⟨hw0, hoff, hf, h⟩)
        · rw [if_neg hf] at h
          injection h with h1 h2
          exact Or.inr (Or.inl ⟨hw0, hoff, hf, h1.symm, h2.symm⟩)

/-- The ways in which a tick returns: nothing happens in a finished game,
otherwise `update` ran. -/
theorem tick_returned_cases (s : State) (draws : List Draw) (s1 : State)
    (rest : List Draw) (h : tick s draws = .returned s1 rest) :
    (s.gameOver = true ∧ s1 = s) ∨
    (s.gameOver = false ∧ update s draws = .returned s1 rest) := by
  unfold tick at h
  cases hgo : s.gameOver
  · right
    simp only [hgo, Bool.not_false, if_true] at h
    exact ⟨rfl, h⟩
  · left
    simp only [hgo, Bool.not_true, Bool.false_eq_true, if_false] at h
    injection h with h1 h2
    exact ⟨rfl, h1.symm⟩

/-- The ways in which handling an event returns: either only `direction` may
have been written, and then with the value of an accepted arrow, or the game was
over and `resetGame` ran. -/
theorem handleEvent_returned_cases (s : State) (ev : Event) (draws : List Draw)
    (s1 : State) (rest : List Draw) (q : Bool)
    (h : handleEvent s ev draws = ⟨.returned s1 rest, q⟩) :
    (s1.snake = s.snake ∧ s1.food = s.food ∧ s1.score = s.score ∧
      s1.gameOver = s.gameOver ∧
      (s1.direction = s.direction ∨
       (s.direction.Y = 0 ∧ (s1.direction = ⟨0, -1⟩ ∨ s1.direction = ⟨0, 1⟩)) ∨
       (s.direction.X = 0 ∧ (s1.direction = ⟨-1, 0⟩ ∨ s1.direction = ⟨1, 0⟩)))) ∨
    (s.gameOver = true ∧ resetGame s draws = .returned s1 rest) := by
  obtain ⟨kind, key, ch⟩ := ev
  unfold handleEvent at h
  by_cases hk : kind = .EventKey
  · simp only [hk, if_true] at h
    cases key with
    | KeyArrowUp | KeyArrowDown =>
      simp only [keySwitch] at h
      by_cases hy : s.direction.Y = 0
      · simp only [hy, if_true, Pass.mk.injEq, Run.returned.injEq] at h
        obtain ⟨⟨rfl, -⟩, -⟩ := h
        exact Or.inl ⟨rfl, rfl, rfl, rfl, Or.inr (Or.inl ⟨hy, by simp⟩)⟩
      · simp only [hy, if_false, Pass.mk.injEq, Run.returned.injEq] at h
        obtain ⟨⟨rfl, -⟩, -⟩ := h
        exact Or.inl ⟨rfl, rfl, rfl, rfl, Or.inl rfl⟩
    | KeyArrowLeft | KeyArrowRight =>
      simp only [keySwitch] at h
      by_cases hx : s.direction.X = 0
      · simp only [hx, if_true, Pass.mk.injEq, Run.returned.injEq] at h
        obtain ⟨⟨rfl, -⟩, -⟩ := h
        exact Or.inl ⟨rfl, rfl, rfl, rfl, Or.inr (Or.inr ⟨hx, by simp⟩)⟩
      · simp only [hx, if_false, Pass.mk.injEq, Run.returned.injEq] at h
        obtain ⟨⟨rfl, -⟩, -⟩ := h
        exact Or.inl ⟨rfl, rfl, rfl, rfl, Or.inl rfl⟩
    | KeyCtrlQ | other =>
      simp only [keySwitch, Pass.mk.injEq, Run.returned.injEq] at h
      obtain ⟨⟨rfl, -⟩, -⟩ := h
      exact Or.inl ⟨rfl, rfl, rfl, rfl, Or.inl rfl⟩
    | KeyEnter =>
      simp only [keySwitch] at h
      cases hgo : s.gameOver
      · simp only [hgo, Bool.false_eq_true, if_false, Pass.mk.injEq,
          Run.returned.injEq] at h
        obtain ⟨⟨rfl, -⟩, -⟩ := h
        exact Or.inl ⟨rfl, rfl, rfl, hgo, Or.inl rfl⟩
      · simp only [hgo, if_true] at h
        right
        refine ⟨rfl, ?_⟩
        cases hr : resetGame s draws with
        | returned s2 rest2 =>
          rw [hr] at h
          simp only [Pass.mk.injEq, Run.returned.injEq] at h
          obtain ⟨⟨rfl, rfl⟩, -⟩ := h
          rfl
        | crashed s2 =>
          rw [hr] at h
          simp at h
        | spinning s2 =>
          rw [hr] at h
          simp at h
  · simp only [hk, if_false, Pass.mk.injEq, Run.returned.injEq] at h
    obtain ⟨⟨rfl, -⟩, -⟩ := h
    exact Or.inl ⟨rfl, rfl, rfl, rfl, Or.inl rfl⟩

/-- C10: in every state reachable from `resetGame` by ticks, key events and
restarts, the food is not a segment of the snake.  `resetGame` and an eating
`update` end in `placeFood`, which leaves its loop only on a cell off the snake;
a move without eating adds a head different from the food and removes a segment;
a collision and a direction change touch neither snake nor food. -/
theorem food_never_on_snake (s : State) (h : Reachable s) : s.food ∉ s.snake := by
  induction h with
  | start s0 draws s rest hr =>
    exact (placeFood_returned_inv _ draws s rest hr).2
  | event s ev draws s1 rest q _ hev ih =>
    rcases handleEvent_returned_cases s ev draws s1 rest q hev with
      ⟨hsn, hfd, -, -, -⟩ | ⟨-, hr⟩
    · rw [hsn, hfd]
      exact ih
    · exact (placeFood_returned_inv _ draws s1 rest hr).2
  | tick s draws s1 rest _ htk ih =>
    rcases tick_returned_cases s draws s1 rest htk with ⟨-, rfl⟩ | ⟨-, hup⟩
    · exact ih
    · obtain ⟨head, tail, -, hcase⟩ := update_returned_cases s draws s1 rest hup
      rcases hcase with ⟨rfl, -⟩ | ⟨-, -, hf, rfl, -⟩ | ⟨-, -, -, hpf⟩
      · exact ih
      · intro hmem
        have hmem2 : s.food ∈ newHead head s.direction :: s.snake :=
          List.mem_of_mem_dropLast hmem
        rcases List.mem_cons.1 hmem2 with heq | hin
        · exact hf heq.symm
        · exact ih hin
      · exact (placeFood_returned_inv _ draws s1 rest hpf).2

/-- Witness for C10 at the reachable state `turnedBack`. -/
theorem food_never_on_snake_witness :
    Reachable turnedBack ∧ turnedBack.food ∉ turnedBack.snake :=
  ⟨reachable_turnedBack, food_never_on_snake turnedBack reachable_turnedBack⟩

/-! ## Invariants of the loop and the remaining claims -/

theorem resetGame_returned_fields (s0 : State) (draws : List Draw) (s : State)
    (rest : List Draw) (h : resetGame s0 draws = .returned s rest) :
    s.snake = startSnake ∧ s.direction = ⟨1, 0⟩ ∧ s.score = 0 ∧ s.gameOver = false := by
  have hfr := placeFood_frame draws
    { snake := startSnake, food := s0.food, direction := ⟨1, 0⟩, score := 0,
      gameOver := false }
  have hdef : resetGame s0 draws = placeFood
      { snake := startSnake, food := s0.food, direction := ⟨1, 0⟩, score := 0,
        gameOver := false } draws := rfl
  rw [← hdef, h] at hfr
  exact ⟨hfr.1, hfr.2.1, hfr.2.2.1, hfr.2.2.2⟩

theorem placeFood_returned_fields (s : State) (draws : List Draw) (s1 : State)
    (rest : List Draw) (h : placeFood s draws = .returned s1 rest) :
    s1.snake = s.snake ∧ s1.direction = s.direction ∧ s1.score = s.score ∧
      s1.gameOver = s.gameOver := by
  have hfr := placeFood_frame draws s
  rw [h] at hfr
  exact hfr

/-- The effect of a returning `update` on snake, direction and score. -/
theorem update_returned_shape (s : State) (draws : List Draw) (s1 : State)
    (rest : List Draw) (h : update s draws = .returned s1 rest) :
    ∃ head tail, s.snake = head :: tail ∧ s1.direction = s.direction ∧
      ((s1.snake = s.snake ∧ s1.score = s.score) ∨
       (hitsWall (newHead head s.direction) = false ∧
        newHead head s.direction ∉ s.snake ∧
        s1.snake = (newHead head s.direction :: s.snake).dropLast ∧
        s1.score = s.score) ∨
       (hitsWall (newHead head s.direction) = false ∧
        newHead head s.direction ∉ s.snake ∧
        s1.snake = newHead head s.direction :: s.snake ∧
        s1.score = wrap64 (s.score + 1))) := by
  obtain ⟨head, tail, hs, hcase⟩ := update_returned_cases s draws s1 rest h
  refine ⟨head, tail, hs, ?_⟩
  rcases hcase with ⟨rfl, -⟩ | ⟨hw, hoff, -, rfl, -⟩ | ⟨hw, hoff, -, hpf⟩
  · exact ⟨rfl, Or.inl ⟨rfl, rfl⟩⟩
  · exact ⟨rfl, Or.inr (Or.inl ⟨hw, hoff, rfl, rfl⟩)⟩
  · obtain ⟨h1, h2, h3, -⟩ := placeFood_returned_fields _ draws s1 rest hpf
    exact ⟨h2, Or.inr (Or.inr ⟨hw, hoff, h1, h3⟩)⟩

theorem interior_of_not_hitsWall (p : Point) (h : hitsWall p = false) : interior p := by
  have h1 := (hitsWall_false_iff p).1 h
  unfold interior
  simp only [width, height] at h1 ⊢
  push_neg at h1
  omega

theorem length_dropLast_cons (p : Point) (l : List Point) :
    (p :: l).dropLast.length = l.length := by
  simp

theorem wellFormed_start (s : State) (hs : s.snake = startSnake)
    (hd : s.direction = ⟨1, 0⟩) (hsc : s.score = 0) : WellFormed s := by
  refine ⟨?_, ?_, ?_, ?_, ?_⟩
  · rw [hs]; decide
  · rw [hd]; exact Or.inr (Or.inr (Or.inr rfl))
  · rw [hs]
    intro p hp
    simp only [startSnake, List.mem_cons, List.mem_singleton, List.not_mem_nil,
      or_false] at hp
    rcases hp with rfl | rfl | rfl <;> (unfold interior; decide)
  · rw [hs]; decide
  · rw [hs, hsc]; decide

/-- Every cell inside the border is the candidate cell of some draw. -/
theorem interior_is_cell (p : Point) (h : interior p) : ∃ d : Draw, d.cell = p := by
  obtain ⟨px, py⟩ := p
  unfold interior at h
  simp only [width, height] at h
  refine ⟨⟨⟨(px - 1).toNat, by simp only [width]; omega⟩,
           ⟨(py - 1).toNat, by simp only [height]; omega⟩⟩, ?_⟩
  simp only [Draw.cell, Point.mk.injEq]
  constructor <;> omega

/-- Distinct segments inside the border are at most as many as the interior has
cells. -/
theorem interior_nodup_length_le (l : List Point) (hnd : l.Nodup)
    (hin : ∀ p ∈ l, interior p) : l.length ≤ (width - 2) * (height - 2) := by
  let f : Fin (width - 2) × Fin (height - 2) → Point := fun q => (Draw.mk q.1 q.2).cell
  have hsub : l.toFinset ⊆ Finset.univ.image f := by
    intro p hp
    obtain ⟨d, hd⟩ := interior_is_cell p (hin p (List.mem_toFinset.1 hp))
    exact Finset.mem_image.2 ⟨(d.rx, d.ry), Finset.mem_univ _, hd⟩
  have h1 := Finset.card_le_card hsub
  have h2 : (Finset.univ.image f).card ≤ (width - 2) * (height - 2) := by
    refine le_trans Finset.card_image_le ?_
    rw [Finset.card_univ, Fintype.card_prod, Fintype.card_fin, Fintype.card_fin]
  rw [List.toFinset_card_of_nodup hnd] at h1
  exact le_trans h1 h2

/-- The loop invariant: every reachable state is well formed. -/
theorem reachable_wellFormed (s : State) (h : Reachable s) : WellFormed s := by
  induction h with
  | start s0 draws s rest hr =>
    obtain ⟨hs, hd, hsc, -⟩ := resetGame_returned_fields s0 draws s rest hr
    exact wellFormed_start s hs hd hsc
  | event s ev draws s1 rest q _ hev ih =>
    rcases handleEvent_returned_cases s ev draws s1 rest q hev with
      ⟨hsn, -, hsc, -, hdir⟩ | ⟨-, hr⟩
    · obtain ⟨hnd, hu, hin, hlen, hscore⟩ := ih
      refine ⟨by rw [hsn]; exact hnd, ?_, by rw [hsn]; exact hin,
        by rw [hsn]; exact hlen, by rw [hsn, hsc]; exact hscore⟩
      rcases hdir with h | ⟨-, h | h⟩ | ⟨-, h | h⟩
      · rw [h]; exact hu
      · rw [h]; exact Or.inl rfl
      · rw [h]; exact Or.inr (Or.inl rfl)
      · rw [h]; exact Or.inr (Or.inr (Or.inl rfl))
      · rw [h]; exact Or.inr (Or.inr (Or.inr rfl))
    · obtain ⟨hs, hd, hsc, -⟩ := resetGame_returned_fields s draws s1 rest hr
      exact wellFormed_start s1 hs hd hsc
  | tick s draws s1 rest _ htk ih =>
    rcases tick_returned_cases s draws s1 rest htk with ⟨-, rfl⟩ | ⟨-, hup⟩
    · exact ih
    · obtain ⟨hnd, hu, hin, hlen, hscore⟩ := ih
      obtain ⟨head, tail, hs, hdir, hcase⟩ := update_returned_shape s draws s1 rest hup
      rcases hcase with ⟨hsn, hsc⟩ | ⟨hw, hoff, hsn, hsc⟩ | ⟨hw, hoff, hsn, hsc⟩
      · exact ⟨by rw [hsn]; exact hnd, by rw [hdir]; exact hu, by rw [hsn]; exact hin,
          by rw [hsn]; exact hlen, by rw [hsn, hsc]; exact hscore⟩
      · have hcons : (newHead head s.direction :: s.snake).Nodup :=
          List.nodup_cons.2 ⟨hoff, hnd⟩
        refine ⟨?_, by rw [hdir]; exact hu, ?_, ?_, ?_⟩
        · rw [hsn]
          exact hcons.sublist (List.dropLast_sublist _)
        · intro p hp
          rw [hsn] at hp
          rcases List.mem_cons.1 (List.mem_of_mem_dropLast hp) with rfl | hp
          · exact interior_of_not_hitsWall _ hw
          · exact hin p hp
        · rw [hsn, length_dropLast_cons]; exact hlen
        · rw [hsn, length_dropLast_cons, hsc]; exact hscore
      · refine ⟨?_, by rw [hdir]; exact hu, ?_, ?_, ?_⟩
        · rw [hsn]
          exact List.nodup_cons.2 ⟨hoff, hnd⟩
        · intro p hp
          rw [hsn] at hp
          rcases List.mem_cons.1 hp with rfl | hp
          · exact interior_of_not_hitsWall _ hw
          · exact hin p hp
        · rw [hsn, List.length_cons]; omega
        · have hcons : (newHead head s.direction :: s.snake).Nodup :=
            List.nodup_cons.2 ⟨hoff, hnd⟩
          have hbound := interior_nodup_length_le _ hcons (by
            intro p hp
            rcases List.mem_cons.1 hp with rfl | hp
            · exact interior_of_not_hitsWall _ hw
            · exact hin p hp)
          rw [List.length_cons] at hbound
          simp only [width, height] at hbound
          have hno : wrap64 (s.score + 1) = s.score + 1 := by
            apply wrap64_eq_self
            unfold isInt64
            omega
          rw [hsn, hsc, hno, List.length_cons, hscore]; push_cast; ring

theorem reachable_feedState : Reachable feedState :=
  Reachable.start overState [drawAhead] feedState [] (by decide)

theorem reachable_fedState : Reachable fedState :=
  Reachable.tick feedState [drawCorner] fedState [] reachable_feedState (by decide)

theorem reachable_movedState : Reachable movedState :=
  Reachable.tick startState [] movedState [] reachable_startState (by decide)

/-- C11: in every state reachable from `resetGame` by ticks, key events and
restarts, the segments of the snake are pairwise distinct. -/
theorem snake_no_duplicates (s : State) (h : Reachable s) :
    s.snake.Nodup ∧ s.snake.Pairwise (fun p q => p ≠ q) :=
  ⟨(reachable_wellFormed s h).1, (reachable_wellFormed s h).1⟩

/-- Witness for C11 at the state reached by eating once. -/
theorem snake_no_duplicates_witness :
    Reachable fedState ∧ fedState.snake.Nodup :=
  ⟨reachable_fedState, (snake_no_duplicates fedState reachable_fedState).1⟩

theorem draw_cell_injective (d e : Draw) (h : d.cell = e.cell) : d = e := by
  obtain ⟨⟨dx, hdx⟩, ⟨dy, hdy⟩⟩ := d
  obtain ⟨⟨ex, hex⟩, ⟨ey, hey⟩⟩ := e
  simp only [Draw.cell, Point.mk.injEq] at h
  obtain ⟨h1, h2⟩ := h
  have : dx = ex := by omega
  have : dy = ey := by omega
  subst_vars
  rfl

theorem mem_fullSnake (d : Draw) : d.cell ∈ fullSnake := by
  obtain ⟨⟨dx, hdx⟩, ⟨dy, hdy⟩⟩ := d
  unfold fullSnake
  rw [List.mem_flatMap]
  refine ⟨dx, List.mem_range.2 hdx, ?_⟩
  rw [List.mem_map]
  refine ⟨dy, ?_, rfl⟩
  split_ifs
  · exact List.mem_range.2 hdy
  · exact List.mem_reverse.2 (List.mem_range.2 hdy)

set_option maxRecDepth 100000 in
theorem fullSnake_length : fullSnake.length = 684 := by rfl

/-- A snake with fewer segments than there are interior cells misses one of the
cells that `placeFood` can draw. -/
theorem vacant_cell_exists (snake : List Point)
    (hlen : snake.length < (width - 2) * (height - 2)) : ∃ d : Draw, d.cell ∉ snake := by
  by_contra hall
  push_neg at hall
  let f : Fin (width - 2) × Fin (height - 2) → Point := fun q => (Draw.mk q.1 q.2).cell
  have hinj : Function.Injective f := by
    intro a b hab
    have := draw_cell_injective _ _ hab
    simp only [Draw.mk.injEq] at this
    exact Prod.ext this.1 this.2
  have hsub : Finset.univ.image f ⊆ snake.toFinset := by
    intro p hp
    obtain ⟨q, -, rfl⟩ := Finset.mem_image.1 hp
    exact List.mem_toFinset.2 (hall _)
  have hcard : (Finset.univ.image f).card = (width - 2) * (height - 2) := by
    rw [Finset.card_image_of_injective _ hinj, Finset.card_univ, Fintype.card_prod,
      Fintype.card_fin, Fintype.card_fin]
  have h1 := Finset.card_le_card hsub
  have h2 := List.toFinset_card_le snake
  omega

/-- The loop of `placeFood` skips the draws that are on the snake and returns at
the first one that is not. -/
theorem placeFood_first_vacant (pre : List Draw) (s : State) (d : Draw)
    (post : List Draw) (hpre : ∀ x ∈ pre, x.cell ∈ s.snake) (hd : d.cell ∉ s.snake) :
    placeFood s (pre ++ d :: post) = .returned { s with food := d.cell } post := by
  induction pre generalizing s with
  | nil =>
    have ho : onSnake s.snake d.cell = false := (onSnake_false_iff _ _).2 hd
    simp [placeFood, ho]
  | cons x xs ih =>
    have hx : onSnake s.snake x.cell = true :=
      (onSnake_iff _ _).2 (hpre x (List.mem_cons_self _ _))
    have hrec := ih { s with food := x.cell }
      (fun y hy => hpre y (List.mem_cons_of_mem _ hy)) hd
    simp only [List.cons_append, placeFood, hx, Bool.not_true, Bool.false_eq_true, if_false]
    exact hrec

/-- C12 as stated fails: the snake `fullSnake` has 684 segments, fewer than the
`width*height = 800` cells of the board, yet every cell `placeFood` can draw is
one of its segments and `placeFood` returns on no list of draws. -/
theorem full_interior_never_accepts :
    fullSnake.length < width * height ∧
    (∀ d : Draw, d.cell ∈ fullSnake) ∧
    (∀ draws : List Draw, (placeFood fullState draws).isReturned = false) := by
  refine ⟨by rw [fullSnake_length]; decide, mem_fullSnake, fun draws => ?_⟩
  have h := placeFood_isReturned_iff draws fullState
  cases hr : (placeFood fullState draws).isReturned
  · rfl
  · obtain ⟨d, -, hd⟩ := h.1 hr
    exact absurd (mem_fullSnake d) hd

/-- C12, amended: for every snake with fewer segments than the interior has cells,
`(width-2)*(height-2)`, some cell that `placeFood` can draw is vacant, and on
every list of draws `placeFood` returns at the first draw that is not on the
snake, with that cell as food and the later draws unused. -/
theorem placeFood_exits_below_interior (s : State)
    (hlen : s.snake.length < (width - 2) * (height - 2)) :
    (∃ d : Draw, d.cell ∉ s.snake) ∧
    (∀ (pre : List Draw) (d : Draw) (post : List Draw),
      (∀ x ∈ pre, x.cell ∈ s.snake) → d.cell ∉ s.snake →
      placeFood s (pre ++ d :: post) = .returned { s with food := d.cell } post) :=
  ⟨vacant_cell_exists s.snake hlen,
   fun pre d post hpre hd => placeFood_first_vacant pre s d post hpre hd⟩

/-- Witness for C12, amended: on the start snake the draw on the head is skipped
and the corner draw is accepted. -/
theorem placeFood_exits_below_interior_witness :
    startState.snake.length < (width - 2) * (height - 2) ∧
    placeFood startState ([drawCentre] ++ drawCorner :: [drawAhead]) =
      .returned { startState with food := drawCorner.cell } [drawAhead] :=
  ⟨by decide,
   (placeFood_exits_below_interior startState (by decide)).2 [drawCentre] drawCorner
     [drawAhead] (by decide) (by decide)⟩

theorem resetGame_isReturned_iff (s : State) (draws : List Draw) :
    (resetGame s draws).isReturned = true ↔ ∃ d ∈ draws, d.cell ∉ startSnake :=
  placeFood_isReturned_iff draws
    { snake := startSnake, food := s.food, direction := ⟨1, 0⟩, score := 0,
      gameOver := false }

/-- What the event branch does with the outcome of the key switch. -/
theorem handleEvent_key (s : State) (ev : Event) (draws : List Draw)
    (hk : ev.Kind = .EventKey) :
    handleEvent s ev draws =
      match keySwitch s ev.Key draws with
      | ⟨.returned s1 rest, false⟩ => ⟨.returned s1 rest, ev.Ch == 'q'⟩
      | p => p := by
  simp [handleEvent, hk]

/-- C13: handling a key event Enter in a state with `gameOver = false` returns
the state unchanged (snake, food, score, direction, `gameOver`) without using
the random source; in a state with `gameOver = true` it runs `resetGame`, so
whenever it returns the state is the one `resetGame` produced. -/
theorem enter_restarts_only_when_over (s : State) (ev : Event) (draws : List Draw)
    (hk : ev.Kind = .EventKey) (he : ev.Key = .KeyEnter) :
    (s.gameOver = false →
      handleEvent s ev draws = ⟨.returned s draws, ev.Ch == 'q'⟩) ∧
    (s.gameOver = true →
      (handleEvent s ev draws).run = resetGame s draws ∧
      ((handleEvent s ev draws).run.isReturned = true ↔
        ∃ d ∈ draws, d.cell ∉ startSnake)) := by
  rw [handleEvent_key s ev draws hk, he]
  refine ⟨fun hgo => ?_, fun hgo => ?_⟩
  · simp [keySwitch, hgo]
  · have hrun : (match keySwitch s .KeyEnter draws with
        | ⟨.returned s1 rest, false⟩ => (⟨.returned s1 rest, ev.Ch == 'q'⟩ : Pass)
        | p => p).run = resetGame s draws := by
      simp only [keySwitch, hgo, if_true]
      cases resetGame s draws <;> rfl
    rw [hrun]
    exact ⟨rfl, resetGame_isReturned_iff s draws⟩

/-- Witness for C13: Enter is ignored at the running `startState` and restarts
the finished game `overState`. -/
theorem enter_restarts_only_when_over_witness :
    handleEvent startState (keyEvent .KeyEnter) [drawAhead] =
      ⟨.returned startState [drawAhead], false⟩ ∧
    (handleEvent overState (keyEvent .KeyEnter) [drawAhead]).run =
      resetGame overState [drawAhead] :=
  ⟨(enter_restarts_only_when_over startState (keyEvent .KeyEnter) [drawAhead] rfl rfl).1 rfl,
   ((enter_restarts_only_when_over overState (keyEvent .KeyEnter) [drawAhead] rfl rfl).2
      rfl).1⟩

/-- The key switch executes `break gameLoop` exactly for Ctrl-Q. -/
theorem keySwitch_quit (s : State) (k : Key) (draws : List Draw) :
    (keySwitch s k draws).quit = decide (k = .KeyCtrlQ) := by
  cases k <;> simp only [keySwitch] <;> (try split_ifs) <;> rfl

theorem keySwitch_isReturned (s : State) (k : Key) (draws : List Draw) :
    (keySwitch s k draws).run.isReturned = true ↔
      (k = .KeyEnter → s.gameOver = true → ∃ d ∈ draws, d.cell ∉ startSnake) := by
  cases k with
  | KeyEnter =>
    cases hgo : s.gameOver
    · simp [keySwitch, hgo, Run.isReturned]
    · simp only [keySwitch, hgo, if_true, true_implies]
      exact resetGame_isReturned_iff s draws
  | KeyArrowUp | KeyArrowDown | KeyArrowLeft | KeyArrowRight =>
    simp only [keySwitch]
    split_ifs <;> simp [Run.isReturned]
  | KeyCtrlQ | other => simp [keySwitch, Run.isReturned]

/-- The outcome of the event branch in terms of the outcome of the key switch. -/
theorem handleEvent_key_outcome (s : State) (ev : Event) (draws : List Draw)
    (hk : ev.Kind = .EventKey) :
    (handleEvent s ev draws).run = (keySwitch s ev.Key draws).run ∧
    (handleEvent s ev draws).quit =
      ((keySwitch s ev.Key draws).quit ||
        ((keySwitch s ev.Key draws).run.isReturned && (ev.Ch == 'q'))) := by
  rw [handleEvent_key s ev draws hk]
  rcases hp : keySwitch s ev.Key draws with ⟨r, q⟩
  cases r <;> cases q <;> simp [Run.isReturned]

/-- C14: for a key event, the handler executes `break gameLoop` when the key is
Ctrl-Q, and when the character is `q` and the key switch returns; with neither
it does not.  The switch returns except for Enter in a finished game while
`placeFood` finds no draw off the start snake.  An event that is not a key event
returns the state and the random source unchanged and does not leave the loop. -/
theorem quit_requests (s : State) (ev : Event) (draws : List Draw) :
    (ev.Kind = .EventKey → ev.Key = .KeyCtrlQ →
      handleEvent s ev draws = ⟨.returned s draws, true⟩) ∧
    (ev.Kind = .EventKey → ev.Ch = 'q' →
      (handleEvent s ev draws).run.isReturned = true →
      (handleEvent s ev draws).quit = true) ∧
    (ev.Kind = .EventKey → ev.Key ≠ .KeyCtrlQ → ev.Ch ≠ 'q' →
      (handleEvent s ev draws).quit = false) ∧
    (ev.Kind = .EventKey →
      ((handleEvent s ev draws).run.isReturned = true ↔
        (ev.Key = .KeyEnter → s.gameOver = true → ∃ d ∈ draws, d.cell ∉ startSnake))) ∧
    (ev.Kind ≠ .EventKey → handleEvent s ev draws = ⟨.returned s draws, false⟩) := by
  refine ⟨fun hk hq => ?_, fun hk hc hret => ?_, fun hk hq hc => ?_, fun hk => ?_,
    fun hk => ?_⟩
  · rw [handleEvent_key s ev draws hk, hq]
    rfl
  · obtain ⟨hrun, hquit⟩ := handleEvent_key_outcome s ev draws hk
    rw [hrun] at hret
    rw [hquit, hret, hc]
    simp
  · obtain ⟨-, hquit⟩ := handleEvent_key_outcome s ev draws hk
    rw [hquit, keySwitch_quit]
    simp [hq, hc]
  · obtain ⟨hrun, -⟩ := handleEvent_key_outcome s ev draws hk
    rw [hrun]
    exact keySwitch_isReturned s ev.Key draws
  · simp [handleEvent, hk]

/-- Witness for C14: Ctrl-Q and the character `q` leave the loop, an arrow key and
a resize event do not. -/
theorem quit_requests_witness :
    handleEvent startState (keyEvent .KeyCtrlQ) [] = ⟨.returned startState [], true⟩ ∧
    (handleEvent startState (charEvent 'q') []).quit = true ∧
    (handleEvent startState (keyEvent .KeyArrowUp) []).quit = false ∧
    handleEvent startState resizeEvent [] = ⟨.returned startState [], false⟩ :=
  ⟨(quit_requests startState (keyEvent .KeyCtrlQ) []).1 rfl rfl,
   (quit_requests startState (charEvent 'q') []).2.1 rfl rfl (by decide),
   (quit_requests startState (keyEvent .KeyArrowUp) []).2.2.1 rfl (by decide) (by decide),
   (quit_requests startState resizeEvent []).2.2.2.2 (by decide)⟩

/-- C15: in a state that is not game-over, whose snake is `head :: tail` and whose
next head is neither on the border nor on the snake, the tick runs `update`;
when the next head is not the food `update` returns with the snake equal to the
next head followed by the previous snake without its last segment, in the
previous order, and when it is the food the snake is the next head followed by
the entire previous snake. -/
theorem update_snake_exact (s : State) (draws : List Draw) (head : Point)
    (tail : List Point) (hgo : s.gameOver = false) (hs : s.snake = head :: tail)
    (hwall : ¬ ((newHead head s.direction).X ≤ 0 ∨
                (newHead head s.direction).X ≥ (width : Int) - 1 ∨
                (newHead head s.direction).Y ≤ 0 ∨
                (newHead head s.direction).Y ≥ (height : Int) - 1))
    (hself : newHead head s.direction ∉ s.snake) :
    tick s draws = update s draws ∧
    (newHead head s.direction ≠ s.food →
      update s draws =
        .returned { s with snake := newHead head s.direction :: s.snake.dropLast } draws) ∧
    (newHead head s.direction = s.food →
      (update s draws).state.snake = newHead head s.direction :: s.snake ∧
      ((update s draws).isReturned = true ↔
        ∃ d ∈ draws, d.cell ∉ newHead head s.direction :: s.snake)) := by
  have hw : hitsWall (newHead head s.direction) = false := (hitsWall_false_iff _).2 hwall
  have ho : onSnake s.snake (newHead head s.direction) = false :=
    (onSnake_false_iff _ _).2 hself
  refine ⟨tick_running s draws hgo, fun hf => ?_, fun hf => ?_⟩
  · rw [update_cons s draws head tail hs]
    simp only [hw, ho, Bool.false_eq_true, if_false, if_neg hf]
    have hdl : (newHead head s.direction :: s.snake).dropLast =
        newHead head s.direction :: s.snake.dropLast := by
      rw [hs]; rfl
    rw [hdl]
  · rw [update_cons s draws head tail hs]
    simp only [hw, ho, Bool.false_eq_true, if_false, if_pos hf]
    exact ⟨(placeFood_frame draws _).1, placeFood_isReturned_iff draws _⟩

/-- Witness for C15: one tick from the start position, food elsewhere. -/
theorem update_snake_exact_witness :
    update startState [] =
      .returned { startState with snake := [⟨21, 10⟩, ⟨20, 10⟩, ⟨19, 10⟩] } [] ∧
    (update feedState [drawCorner]).state.snake =
      [⟨21, 10⟩, ⟨20, 10⟩, ⟨19, 10⟩, ⟨18, 10⟩] :=
  ⟨(update_snake_exact startState [] ⟨20, 10⟩ [⟨19, 10⟩, ⟨18, 10⟩] rfl rfl
      (by decide) (by decide)).2.1 (by decide),
   ((update_snake_exact feedState [drawCorner] ⟨20, 10⟩ [⟨19, 10⟩, ⟨18, 10⟩] rfl rfl
      (by decide) (by decide)).2.2 (by decide)).1⟩

/-- Every candidate cell of `placeFood` is inside the border. -/
theorem cell_interior (d : Draw) : interior d.cell := by
  obtain ⟨⟨dx, hdx⟩, ⟨dy, hdy⟩⟩ := d
  unfold interior
  simp only [Draw.cell, width, height] at hdx hdy ⊢
  omega

/-- The food with which `placeFood` returns is the cell of one of its draws. -/
theorem placeFood_returned_cell (draws : List Draw) (s : State) (s1 : State)
    (rest : List Draw) (h : placeFood s draws = .returned s1 rest) :
    ∃ d ∈ draws, s1.food = d.cell := by
  induction draws generalizing s with
  | nil => simp [placeFood] at h
  | cons d ds ih =>
    unfold placeFood at h
    by_cases ho : onSnake s.snake d.cell = true
    · simp only [ho, Bool.not_true, Bool.false_eq_true, if_false] at h
      obtain ⟨x, hx, hfx⟩ := ih { s with food := d.cell } h
      exact ⟨x, List.mem_cons_of_mem _ hx, hfx⟩
    · simp only [ho, Bool.not_false, if_true, Run.returned.injEq] at h
      obtain ⟨rfl, -⟩ := h
      exact ⟨d, List.mem_cons_self _ _, rfl⟩

/-- C16: for every snake and every list of draws, `placeFood` returns exactly when
some draw is off the snake, and whenever it returns the food lies inside the
1-cell border: `1 <= food.X <= width-2` and `1 <= food.Y <= height-2`. -/
theorem placeFood_food_interior (s : State) (draws : List Draw) :
    ((placeFood s draws).isReturned = true ↔ ∃ d ∈ draws, d.cell ∉ s.snake) ∧
    (∀ s1 rest, placeFood s draws = .returned s1 rest →
      1 ≤ s1.food.X ∧ s1.food.X ≤ (width : Int) - 2 ∧
      1 ≤ s1.food.Y ∧ s1.food.Y ≤ (height : Int) - 2) := by
  refine ⟨placeFood_isReturned_iff draws s, fun s1 rest h => ?_⟩
  obtain ⟨d, -, hd⟩ := placeFood_returned_cell draws s s1 rest h
  rw [hd]
  exact cell_interior d

/-- Witness for C16: the food accepted after one rejected draw is `(1, 1)`. -/
theorem placeFood_food_interior_witness :
    1 ≤ startState.food.X ∧ startState.food.X ≤ (width : Int) - 2 ∧
    1 ≤ startState.food.Y ∧ startState.food.Y ≤ (height : Int) - 2 :=
  (placeFood_food_interior feedState [drawCentre, drawCorner]).2 startState []
    (by decide)

/-- C17: in every state reachable from `resetGame` by ticks, key events and
restarts, `direction` is one of `(0,-1)`, `(0,1)`, `(-1,0)`, `(1,0)`; it is not
the zero vector and not a diagonal. -/
theorem direction_is_unit (s : State) (h : Reachable s) :
    (s.direction = ⟨0, -1⟩ ∨ s.direction = ⟨0, 1⟩ ∨ s.direction = ⟨-1, 0⟩ ∨
      s.direction = ⟨1, 0⟩) ∧
    s.direction ≠ ⟨0, 0⟩ ∧
    (s.direction.X = 0 ∨ s.direction.Y = 0) := by
  have hu : isUnit s.direction := (reachable_wellFormed s h).2.1
  refine ⟨hu, ?_, ?_⟩
  · rcases hu with h1 | h1 | h1 | h1 <;> rw [h1] <;> decide
  · rcases hu with h1 | h1 | h1 | h1 <;> rw [h1] <;> simp

/-- Witness for C17 at the state reached by Up then Left from the start. -/
theorem direction_is_unit_witness :
    Reachable turnedBack ∧ turnedBack.direction ≠ ⟨0, 0⟩ :=
  ⟨reachable_turnedBack, (direction_is_unit turnedBack reachable_turnedBack).2.1⟩

/-- The loop of `placeFood` indexes nothing: it never stops with an index error. -/
theorem placeFood_never_crashed (draws : List Draw) (s : State) (s1 : State) :
    placeFood s draws ≠ .crashed s1 := by
  induction draws generalizing s with
  | nil => simp [placeFood]
  | cons d ds ih =>
    unfold placeFood
    by_cases ho : onSnake s.snake d.cell = true
    · simp only [ho, Bool.not_true, Bool.false_eq_true, if_false]
      exact ih _
    · simp [ho]

/-- C18: in every state reachable from `resetGame` by ticks, key events and
restarts, the snake is non-empty and every segment satisfies
`1 <= x <= width-2` and `1 <= y <= height-2`; hence neither `update` nor the
tick stops with an index error at `snake[0]`. -/
theorem snake_inside_border (s : State) (h : Reachable s) :
    s.snake ≠ [] ∧
    (∀ p ∈ s.snake, 1 ≤ p.X ∧ p.X ≤ (width : Int) - 2 ∧
      1 ≤ p.Y ∧ p.Y ≤ (height : Int) - 2) ∧
    (∀ draws s1, update s draws ≠ .crashed s1 ∧ tick s draws ≠ .crashed s1) := by
  obtain ⟨-, -, hin, hlen, -⟩ := reachable_wellFormed s h
  have hne : s.snake ≠ [] := by
    intro h0
    rw [h0] at hlen
    simp at hlen
  refine ⟨hne, hin, fun draws s1 => ?_⟩
  obtain ⟨head, tail, hs⟩ := List.exists_cons_of_ne_nil hne
  have hup : update s draws ≠ .crashed s1 := by
    rw [update_cons s draws head tail hs]
    intro hc
    split_ifs at hc
    all_goals first
      | exact Run.noConfusion hc
      | exact placeFood_never_crashed _ _ s1 hc
  refine ⟨hup, ?_⟩
  unfold tick
  split_ifs
  · exact hup
  · simp

/-- Witness for C18 at the state reached by one tick from the start. -/
theorem snake_inside_border_witness :
    Reachable movedState ∧ movedState.snake ≠ [] ∧
    update movedState [] ≠ .crashed movedState :=
  ⟨reachable_movedState, (snake_inside_border movedState reachable_movedState).1,
   ((snake_inside_border movedState reachable_movedState).2.2 [] movedState).1⟩

/-- C19: in every state reachable from `resetGame` by ticks, key events and
restarts, the score equals the number of segments minus 3; so the score is not
negative and there are at least three segments. -/
theorem score_is_length_minus_three (s : State) (h : Reachable s) :
    s.score = (s.snake.length : Int) - 3 ∧ 0 ≤ s.score ∧ 3 ≤ s.snake.length := by
  obtain ⟨-, -, -, hlen, hsc⟩ := reachable_wellFormed s h
  refine ⟨hsc, ?_, hlen⟩
  rw [hsc]
  omega

/-- Witness for C19 at the state reached by eating once: four segments, score 1. -/
theorem score_is_length_minus_three_witness :
    Reachable fedState ∧ fedState.score = 1 ∧ fedState.snake.length = 4 ∧
    fedState.score = (fedState.snake.length : Int) - 3 :=
  ⟨reachable_fedState, rfl, rfl,
   (score_is_length_minus_three fedState reachable_fedState).1⟩

end Snake
